import Mathlib

/-!
Verification development for the Re-Archive application (src/main.py).

The core under study is the archive tree model built by
`TreeFileList.populate_tree`, the selection resolver
`TreeFileList.get_selected_files` / `TreeFileList._add_files_under_folder`,
the extraction coordinator `ReArchiveApp.extract_archive_contents` /
`ReArchiveApp.extract_files`, and the semaphore discipline of the
background tasks in `ReArchiveApp.populate_file_list` and the two
`extract_task` closures.

The wx.TreeCtrl is modelled as a rose tree of items.  A tree item handle
(wx.TreeItemId) is modelled as the position of the item in the tree: the
list of child indices on the way from the (hidden) root.  During
`populate_tree` the control is only ever appended to, so positions are
stable and uniquely identify items, exactly like wx handles do.  An
*invalid* item (what wx.TreeCtrl.GetFirstChild returns for a childless
item) is modelled as `none`; wxWidgets raises a wxAssertionError when
AppendItem is called on an invalid parent, which we model as the
`Except.error` outcome of the operation.
-/

/-- The `data` dictionary attached to a tree item by `populate_tree`:
`{"type": "folder"}` for folders, `{"type": "file", "size": ..., "date": ...}`
for files.  Sizes and dates are the strings the source stores. -/
inductive ItemData where
  | folder : ItemData
  | file (size : String) (date : String) : ItemData
deriving DecidableEq, Repr

/-- One wx.TreeCtrl item: its label (the path segment shown), its attached
`data` dictionary (`none` for the root created by AddRoot), its entry in the
`file_paths` dictionary (`none` when the item is not a key of `file_paths`),
and its ordered list of children. -/
inductive WxNode where
  | mk (label : String) (data : Option ItemData) (fp : Option String)
       (children : List WxNode) : WxNode

/-- The label of an item. -/
def WxNode.label : WxNode → String
  | .mk l _ _ _ => l

/-- The `data` dictionary of an item. -/
def WxNode.data : WxNode → Option ItemData
  | .mk _ d _ _ => d

/-- The `file_paths` entry of an item (`none` when the item is not a key of
`self.file_paths`). -/
def WxNode.fp : WxNode → Option String
  | .mk _ _ f _ => f

/-- The ordered children of an item. -/
def WxNode.children : WxNode → List WxNode
  | .mk _ _ _ cs => cs

/-- Splits a character list on the separator character, keeping empty
segments for the moment. -/
def segsOf : List Char → List Char → List (List Char)
  | [], acc => [acc.reverse]
  | c :: rest, acc =>
    if c = '/' then acc.reverse :: segsOf rest []
    else segsOf rest (c :: acc)

/-- `Path(file_path).parts` of the source for a relative slash-separated
path: split on the separator; pathlib drops empty segments (from repeated
or trailing separators) and single-dot segments. -/
def splitPath (p : String) : List String :=
  ((segsOf p.toList []).map (fun cs => String.mk cs)).filter
    (fun s => !(s == "" || s == "."))

/-- `str.endswith` of Python (and wx file-name dispatch): the last
characters of `s` are exactly `post`. -/
def strEndsWith (s post : String) : Bool :=
  s.toList.reverse.take post.toList.length == post.toList.reverse

/-- The item stored at a handle (a child-index path), if the handle is
valid for this tree. -/
def nodeAt : WxNode → List Nat → Option WxNode
  | n, [] => some n
  | .mk _ _ _ cs, i :: is =>
    match cs[i]? with
    | some c => nodeAt c is
    | none => none

/-- Appends a new child at the end of the child list of the item at the
given handle; `none` when the handle is not valid. -/
def appendChildAt : WxNode → List Nat → WxNode → Option WxNode
  | .mk l d f cs, [], newChild => some (.mk l d f (cs ++ [newChild]))
  | .mk l d f cs, i :: is, newChild =>
    match cs[i]? with
    | some c =>
      match appendChildAt c is newChild with
      | some c2 => some (.mk l d f (cs.set i c2))
      | none => none
    | none => none

/-- wx.TreeCtrl.AppendItem as used by `populate_tree`: append a child with
the given label, `data` dictionary and `file_paths` entry under the parent
item, returning the updated tree and the handle of the new item.  Calling
it with an invalid parent item fails (wxWidgets assertion), modelled as
`Except.error`. -/
def AppendItem (tree : WxNode) (parent : Option (List Nat)) (label : String)
    (data : Option ItemData) (fp : Option String) :
    Except String (WxNode × List Nat) :=
  match parent with
  | none => .error "AppendItem: invalid parent item"
  | some h =>
    match nodeAt tree h with
    | none => .error "AppendItem: invalid parent item"
    | some p =>
      match appendChildAt tree h (.mk label data fp []) with
      | some t2 => .ok (t2, h ++ [p.children.length])
      | none => .error "AppendItem: invalid parent item"

/-- wx.TreeCtrl.GetFirstChild(item)[0]: the handle of the first child of
the item, or the invalid item (`none`) when the item has no children or is
itself invalid. -/
def GetFirstChild (tree : WxNode) (item : Option (List Nat)) :
    Option (List Nat) :=
  match item with
  | none => none
  | some h =>
    match nodeAt tree h with
    | none => none
    | some n => if n.children.isEmpty then none else some (h ++ [0])

/-- The inner loop of `populate_tree` over `enumerate(path_parts[:-1])`.
`n` is `len(path_parts)`.  The nested dictionaries of `paths_dict` are
represented by the set (list) of key paths that have been inserted:
`part in current_dict` is exactly membership of `dictPath ++ [part]` in
that set, and `current_dict[part] = {}` is exactly its insertion; the
alias `current_dict` itself is the key path `dictPath`.  The walk threads
`current_item` (an optional handle, `none` for an invalid wx item) and the
tree, and propagates the failure of AppendItem on an invalid item. -/
def walkSegments (n : Nat) : List (Nat × String) → List (List String) →
    List String → Option (List Nat) → WxNode →
    Except String (List (List String) × Option (List Nat) × WxNode)
  | [], dicts, _, cur, tree => .ok (dicts, cur, tree)
  | (i, part) :: rest, dicts, dictPath, cur, tree =>
    if (dictPath ++ [part]) ∈ dicts then
      walkSegments n rest dicts (dictPath ++ [part])
        (if i < n - 2 then GetFirstChild tree cur else cur) tree
    else
      match AppendItem tree cur part (some .folder) none with
      | .error e => .error e
      | .ok (tree2, h) =>
        walkSegments n rest (dicts ++ [dictPath ++ [part]])
          (dictPath ++ [part])
          (if i < n - 2 then GetFirstChild tree2 (some h) else some h) tree2

/-- The body of the `for file_path, size, date in files` loop of
`populate_tree`: split the path, walk the non-final segments creating
folder items, then append the file item (whose `file_paths` entry is set
to the full original path).  A path with no parts makes
`path_parts[-1]` raise an IndexError in the source, modelled as an error.
The cross-entry state is the pair of the `paths_dict` prefix set and the
tree. -/
def processEntry (st : List (List String) × WxNode)
    (entry : String × String × String) :
    Except String (List (List String) × WxNode) :=
  match splitPath entry.1 with
  | [] => .error "IndexError: path has no parts"
  | p0 :: prest =>
    match walkSegments (p0 :: prest).length ((p0 :: prest).dropLast.enum)
        st.1 [] (some []) st.2 with
    | .error e => .error e
    | .ok (dicts2, cur, tree2) =>
      match AppendItem tree2 cur ((p0 :: prest).getLastD "")
          (some (.file entry.2.1 entry.2.2)) (some entry.1) with
      | .error e => .error e
      | .ok (tree3, _) => .ok (dicts2, tree3)

/-- `TreeFileList.populate_tree(files)`: delete all items, recreate the
hidden root (label "Root", no data, not in `file_paths`), clear
`file_paths` and `paths_dict`, and process each `(file_path, size, date)`
entry in order.  The result is the final tree, or the error raised while
inserting an entry. -/
def populate_tree (files : List (String × String × String)) :
    Except String WxNode :=
  match files.foldlM processEntry ([], .mk "Root" none none []) with
  | .ok st => .ok st.2
  | .error e => .error e

/-- The loop body of `TreeFileList._add_files_under_folder`, inlined over
the child list of a folder item: a child that is a key of `file_paths`
(`fp` is set) has its path appended; any other child is recursed into.
The accumulator is the mutable `file_list` of the source. -/
def addFilesFromChildren : List WxNode → List String → List String
  | [], acc => acc
  | .mk _ _ (some p) _ :: rest, acc => addFilesFromChildren rest (acc ++ [p])
  | .mk _ _ none cs :: rest, acc =>
    addFilesFromChildren rest (addFilesFromChildren cs acc)

/-- `TreeFileList._add_files_under_folder(folder_item, file_list)`:
recursively adds all files under a folder item to the list. -/
def add_files_under_folder (folder : WxNode) (fileList : List String) :
    List String :=
  addFilesFromChildren folder.children fileList

/-- The loop of `TreeFileList.get_selected_files` over `GetSelections()`:
a selected item that is a key of `file_paths` contributes its path
directly, any other selected item is treated as a folder and recursed
into. -/
def selLoop : List WxNode → List String → List String
  | [], acc => acc
  | item :: rest, acc =>
    match item with
    | .mk _ _ (some p) _ => selLoop rest (acc ++ [p])
    | .mk _ _ none _ => selLoop rest (add_files_under_folder item acc)

/-- `TreeFileList.get_selected_files()`, with the current wx selection
passed explicitly (the source reads it from `self.GetSelections()`). -/
def get_selected_files (selections : List WxNode) : List String :=
  selLoop selections []

/-- Specification-side enumeration used to state claims about the
resolver: the `file_paths` entries of all items of a tree, listed once per
item, in depth-first child-iteration (insertion) order. -/
def allList : List WxNode → List String
  | [] => []
  | .mk _ _ (some p) cs :: rest => p :: (allList cs ++ allList rest)
  | .mk _ _ none cs :: rest => allList cs ++ allList rest

/-- The `file_paths` entries of a tree: the node's own entry followed by
those of its subtrees. -/
def allFileNodePaths : WxNode → List String
  | .mk _ _ (some p) cs => p :: allList cs
  | .mk _ _ none cs => allList cs

/-- Data-model invariant of the specification (section 3): only Folder
nodes own children, i.e. every item that is a key of `file_paths` is a
leaf, checked over a child list. -/
def leavesList : List WxNode → Bool
  | [] => true
  | .mk _ _ (some _) cs :: rest => cs.isEmpty && leavesList rest
  | .mk _ _ none cs :: rest => leavesList cs && leavesList rest

/-- Data-model invariant of the specification (section 3) for a whole
tree: every File item (key of `file_paths`) has no children. -/
def filesAreLeaves : WxNode → Bool
  | .mk _ _ (some _) cs => cs.isEmpty
  | .mk _ _ none cs => leavesList cs

/-- All strict descendants of the items of a list (each item, then its
descendants), used to state which items lie beneath a selected folder. -/
def descList : List WxNode → List WxNode
  | [] => []
  | .mk lb dt fpv cs :: rest =>
    .mk lb dt fpv cs :: (descList cs ++ descList rest)

/-- All strict descendants of an item. -/
def descendants (n : WxNode) : List WxNode :=
  descList n.children

/-!
Extraction coordinator (`ReArchiveApp.extract_archive_contents` and
`ReArchiveApp.extract_files`).

The byte-level archive libraries (py7zr, zipfile, rarfile) are external
collaborators.  Per the external interface, opening an archive may fail
with UnsupportedFormat, CorruptArchive or PermissionDenied, and a
successfully opened archive yields its complete entry list; the outcome
of open-and-list is passed to the model as a value of
`Except ReadErr (List Entry)`.  A wx.MessageBox call is modelled as an
element of the returned list of reported error messages.
-/

/-- Failures of the external Archive Reader when opening and listing an
archive. -/
inductive ReadErr where
  | unsupportedFormat : ReadErr
  | corruptArchive : ReadErr
  | permissionDenied : ReadErr
deriving DecidableEq, Repr

/-- Human-readable text of a reader failure, as interpolated into the
`wx.MessageBox` message of the source. -/
def errText : ReadErr → String
  | .unsupportedFormat => "UnsupportedFormat"
  | .corruptArchive => "CorruptArchive"
  | .permissionDenied => "PermissionDenied"

/-- The shared body of the three format branches of
`extract_archive_contents`: on success the complete entry list is
accumulated into `files`; an exception is caught by the surrounding
`try`/`except` and reported as a single message box, and the (still
empty) `files` list is returned. -/
def readAll (reader : Except ReadErr (List (String × String × String))) :
    List (String × String × String) × List String :=
  match reader with
  | .ok entries => (entries, [])
  | .error e => ([], ["Error extracting archive: " ++ errText e])

/-- `ReArchiveApp.extract_archive_contents(archive_path)`: dispatch on the
file extension; `.7z`, `.zip` and `.rar` use the corresponding library
(modelled by `reader`), any other extension falls through all branches
and the initial empty `files` list is returned with no report.  The
result is the pair of the returned entry list and the reported error
messages. -/
def extract_archive_contents (archive_path : String)
    (reader : Except ReadErr (List (String × String × String))) :
    List (String × String × String) × List String :=
  if strEndsWith archive_path ".7z" then readAll reader
  else if strEndsWith archive_path ".zip" then readAll reader
  else if strEndsWith archive_path ".rar" then readAll reader
  else ([], [])

/-- A single call into the external archive library during extraction:
`extractall(path)`, py7zr's `extract(path, targets)`, or zipfile/rarfile's
per-member `extract(member, path)`. -/
inductive ExtractCmd where
  | extractAll : ExtractCmd
  | extractTargets (targets : List String) : ExtractCmd
  | extractOne (target : String) : ExtractCmd
deriving DecidableEq, Repr

/-- The zipfile/rarfile loop `for file in files_to_extract:
archive.extract(file, extract_path)`: run the per-member calls in order,
accumulating the files written; an exception aborts the loop (files
already written stay on disk) and makes the whole operation fail. -/
def runEach (run : ExtractCmd → Except String (List String)) :
    List String → List String → Bool × List String
  | [], written => (true, written)
  | f :: fs, written =>
    match run (.extractOne f) with
    | .ok w => runEach run fs (written ++ w)
    | .error _ => (false, written)

/-- Python truthiness of the `files_to_extract` argument: `None` and the
empty list are both falsy; only a non-empty list is truthy.  This is the
test `if files_to_extract:` of the source. -/
def isTruthy : Option (List String) → Bool
  | none => false
  | some l => !l.isEmpty

/-- `ReArchiveApp.extract_files(extract_path, files_to_extract)`: dispatch
on the extension of the current archive; within each branch, branch on the
truthiness of `files_to_extract` (py7zr gets one targeted call, zipfile
and rarfile loop per member); the `try`/`except` turns any library
failure into the return value `False`.  The result is the pair of the
returned success flag and the files written by the library calls
(modelled through `run`); an archive whose extension matches no branch
falls through and returns `True` without extracting anything. -/
def extract_files (current_archive : String)
    (run : ExtractCmd → Except String (List String))
    (files_to_extract : Option (List String)) : Bool × List String :=
  if strEndsWith current_archive ".7z" then
    if isTruthy files_to_extract then
      match run (.extractTargets (files_to_extract.getD [])) with
      | .ok w => (true, w)
      | .error _ => (false, [])
    else
      match run .extractAll with
      | .ok w => (true, w)
      | .error _ => (false, [])
  else if strEndsWith current_archive ".zip" then
    if isTruthy files_to_extract then
      runEach run (files_to_extract.getD []) []
    else
      match run .extractAll with
      | .ok w => (true, w)
      | .error _ => (false, [])
  else if strEndsWith current_archive ".rar" then
    if isTruthy files_to_extract then
      runEach run (files_to_extract.getD []) []
    else
      match run .extractAll with
      | .ok w => (true, w)
      | .error _ => (false, [])
  else (true, [])

/-- A standard fault-free archive library for stating extraction
theorems: `extractall` writes every entry of the archive, a targeted call
writes exactly the requested members. -/
def stdRun (entries : List String) : ExtractCmd → Except String (List String)
  | .extractAll => .ok entries
  | .extractTargets l => .ok l
  | .extractOne f => .ok [f]

/-- An archive library whose every call raises ExtractionError, for
stating the failure behaviour of `extract_files`. -/
def failRun : ExtractCmd → Except String (List String) :=
  fun _ => .error "ExtractionError"

/-!
Admission gate (`self.thread_semaphore = threading.Semaphore(2)`).

The background tasks are modelled as sequences of atomic actions and the
system as an interleaving of such tasks.  The only shared state the tasks
touch is the semaphore counter and (for observation) an instrumented
counter of how many tasks are currently inside the Archive Reader.
-/

/-- One atomic action of a background task: acquiring or releasing the
counting semaphore, or entering or leaving the external Archive Reader
(the region between opening the archive library and returning from it). -/
inductive Act where
  | acquire : Act
  | release : Act
  | enterReader : Act
  | exitReader : Act
deriving DecidableEq, Repr

/-- The `task` closure of `ReArchiveApp.populate_file_list`: the
`with self.thread_semaphore:` block acquires the gate, calls
`extract_archive_contents` (the Archive Reader work), and releases the
gate on every exit path, including exceptions. -/
def listTask : List Act :=
  [.acquire, .enterReader, .exitReader, .release]

/-- The `extract_task` closures of `ReArchiveApp.on_extract_archive` and
`ReArchiveApp.on_extract_selected`: they call `extract_files` (the
Archive Reader work) directly; neither closure ever touches
`self.thread_semaphore`. -/
def extractTask : List Act :=
  [.enterReader, .exitReader]

/-- The shared state of the concurrent system: the number of free
semaphore permits, the instrumented count of tasks currently inside the
Archive Reader, and the remaining program of every task. -/
structure Sys where
  sem : Nat
  inReader : Nat
  tasks : List (List Act)
deriving DecidableEq, Repr

/-- Interleaving semantics: one enabled task executes its next action.
`acquire` blocks while no permit is free; the other actions are always
enabled. -/
inductive Step : Sys → Sys → Prop where
  | acquire (pre post : List (List Act)) (p : List Act) (s : Sys)
      (htasks : s.tasks = pre ++ (Act.acquire :: p) :: post)
      (hsem : 0 < s.sem) :
      Step s ⟨s.sem - 1, s.inReader, pre ++ p :: post⟩
  | release (pre post : List (List Act)) (p : List Act) (s : Sys)
      (htasks : s.tasks = pre ++ (Act.release :: p) :: post) :
      Step s ⟨s.sem + 1, s.inReader, pre ++ p :: post⟩
  | enterReader (pre post : List (List Act)) (p : List Act) (s : Sys)
      (htasks : s.tasks = pre ++ (Act.enterReader :: p) :: post) :
      Step s ⟨s.sem, s.inReader + 1, pre ++ p :: post⟩
  | exitReader (pre post : List (List Act)) (p : List Act) (s : Sys)
      (htasks : s.tasks = pre ++ (Act.exitReader :: p) :: post) :
      Step s ⟨s.sem, s.inReader - 1, pre ++ p :: post⟩

/-- A state is reachable from another by any interleaving of task steps. -/
def Reach : Sys → Sys → Prop :=
  Relation.ReflTransGen Step

/-- Number of semaphore permits a task with the given remaining program
still holds (for suffixes of `listTask`: it holds one permit between its
`acquire` and its `release`). -/
def permitsHeld (p : List Act) : Nat :=
  p.count Act.release - p.count Act.acquire

/-- Whether a task with the given remaining program is currently inside
the Archive Reader (for suffixes of `listTask` and `extractTask`: between
its `enterReader` and its `exitReader`). -/
def insideReader (p : List Act) : Nat :=
  p.count Act.exitReader - p.count Act.enterReader

/-- Inductive invariant of a system whose tasks are all
`populate_file_list` tasks: every task is a suffix of `listTask`, the
free permits plus the held permits account for the initial 2, and the
instrumented reader count is the number of tasks inside the reader. -/
def GateInv (s : Sys) : Prop :=
  (∀ p ∈ s.tasks, p <:+ listTask) ∧
  s.sem + (s.tasks.map permitsHeld).sum = 2 ∧
  s.inReader = (s.tasks.map insideReader).sum

theorem runEach_stdRun (entries : List String) (l w : List String) :
    runEach (stdRun entries) l w = (true, w ++ l) := by
  induction l generalizing w with
  | nil => simp [runEach]
  | cons f fs ih => simp [runEach, stdRun, ih]

/-- C6: when the Archive Reader fails while opening and listing a
supported archive (corrupt header, unsupported or misdetected format,
permission error), `extract_archive_contents` catches the failure,
reports exactly one error message, returns the empty entry list (never a
partial one, since the abstract reader fails before yielding entries),
and terminates normally (it is a total function). -/
theorem c6_read_failure_reported (path : String) (e : ReadErr)
    (hsupp : strEndsWith path ".7z" = true ∨ strEndsWith path ".zip" = true ∨
      strEndsWith path ".rar" = true) :
    extract_archive_contents path (.error e) =
      ([], ["Error extracting archive: " ++ errText e]) := by
  rcases hsupp with h7 | hz | hr
  · simp [extract_archive_contents, h7, readAll]
  · cases h7 : strEndsWith path ".7z" <;>
      simp [extract_archive_contents, h7, hz, readAll]
  · cases h7 : strEndsWith path ".7z" <;>
      cases hz : strEndsWith path ".zip" <;>
        simp [extract_archive_contents, h7, hz, hr, readAll]

/-- C6 witness: a corrupt `.7z` archive yields an empty entry list and a
single reported ArchiveReadError. -/
theorem c6_read_failure_reported_witness :
    extract_archive_contents "x.7z" (.error .corruptArchive) =
      ([], ["Error extracting archive: " ++ errText ReadErr.corruptArchive]) :=
  c6_read_failure_reported "x.7z" ReadErr.corruptArchive (Or.inl rfl)

/-- C10: an archive path whose name ends in none of ".7z", ".zip", ".rar"
(for example ".tar" or ".gz", both accepted by the open dialog) makes
`extract_archive_contents` fall through every branch: it returns an empty
entry list and reports no error at all, whatever the reader would have
done. -/
theorem c10_unknown_extension_silent (path : String)
    (reader : Except ReadErr (List (String × String × String)))
    (h7 : strEndsWith path ".7z" = false)
    (hz : strEndsWith path ".zip" = false)
    (hr : strEndsWith path ".rar" = false) :
    extract_archive_contents path reader = ([], []) := by
  simp [extract_archive_contents, h7, hz, hr]

/-- C10 witness: a ".tar" archive (even one whose reader would report a
corrupt header) produces an empty listing and no report. -/
theorem c10_unknown_extension_silent_witness :
    extract_archive_contents "a.tar" (.error .corruptArchive) = ([], []) :=
  c10_unknown_extension_silent "a.tar" (.error .corruptArchive) rfl rfl rfl

/-- C7 counterexample: with a non-None but empty target list, the claim
says exactly the named (i.e. zero) entries are extracted; the code
instead extracts every entry of the archive, because `if
files_to_extract:` is false for the empty list. -/
theorem c7_counterexample :
    extract_files "a.zip" (stdRun ["p", "q"]) (some []) = (true, ["p", "q"]) ∧
    (["p", "q"] : List String) ≠ [] :=
  ⟨rfl, by decide⟩

/-- C7 (amended): `extract_files` with `targetPaths` None *or empty*
extracts every entry; with a non-empty `targetPaths` it extracts exactly
the named entries; and when the underlying library raises, the whole
operation returns failure (no partial-success reporting, no retry). -/
theorem c7_amended (arch : String) (entries l : List String)
    (hsupp : strEndsWith arch ".7z" = true ∨ strEndsWith arch ".zip" = true ∨
      strEndsWith arch ".rar" = true) :
    extract_files arch (stdRun entries) none = (true, entries) ∧
    extract_files arch (stdRun entries) (some []) = (true, entries) ∧
    (l ≠ [] → extract_files arch (stdRun entries) (some l) = (true, l)) ∧
    (∀ t, extract_files arch failRun t = (false, [])) := by
  have hone : ∀ t : Option (List String),
      extract_files arch (stdRun entries) t =
        (true, if isTruthy t then t.getD [] else entries) := by
    intro t
    rcases hsupp with h | h | h <;>
      cases h7 : strEndsWith arch ".7z" <;>
        cases hz : strEndsWith arch ".zip" <;>
          cases ht : isTruthy t <;>
            simp_all [extract_files, stdRun, runEach_stdRun]
  have hfail : ∀ t : Option (List String),
      extract_files arch failRun t = (false, []) := by
    intro t
    rcases hsupp with h | h | h <;>
      cases h7 : strEndsWith arch ".7z" <;>
        cases hz : strEndsWith arch ".zip" <;>
          cases ht : isTruthy t <;>
            rcases t with _ | ⟨_ | ⟨f, fs⟩⟩ <;>
              simp_all [extract_files, failRun, runEach, isTruthy]
  refine ⟨?_, ?_, ?_, hfail⟩
  · simpa [isTruthy] using hone none
  · simpa [isTruthy] using hone (some [])
  · intro hl
    have := hone (some l)
    simpa [isTruthy, List.isEmpty_iff, hl] using this

/-- C7 witness: on a fault-free two-entry zip archive, extracting with
`targetPaths = None` extracts both entries and extracting the named
entry "p" extracts exactly it. -/
theorem c7_amended_witness :
    extract_files "a.zip" (stdRun ["p", "q"]) none = (true, ["p", "q"]) :=
  (c7_amended "a.zip" ["p", "q"] ["p"] (Or.inr (Or.inl rfl))).1

/-- C9: `extract_files` with an empty but non-None target list behaves
exactly as with `targetPaths = None` — for a supported format it asks
the library for every entry of the archive, not for zero entries —
because the source branches on the truthiness of the list. -/
theorem c9_empty_list_extracts_all (arch : String) (entries : List String)
    (run : ExtractCmd → Except String (List String))
    (hsupp : strEndsWith arch ".7z" = true ∨ strEndsWith arch ".zip" = true ∨
      strEndsWith arch ".rar" = true) :
    extract_files arch run (some []) = extract_files arch run none ∧
    extract_files arch (stdRun entries) (some []) = (true, entries) := by
  refine ⟨rfl, ?_⟩
  rcases hsupp with h | h | h <;>
    cases h7 : strEndsWith arch ".7z" <;>
      cases hz : strEndsWith arch ".zip" <;>
        simp_all [extract_files, stdRun, isTruthy]

/-- C9 witness: on a one-entry zip archive, the empty (non-None) target
list extracts the whole archive. -/
theorem c9_empty_list_extracts_all_witness :
    extract_files "a.zip" (stdRun ["p"]) (some []) = (true, ["p"]) :=
  (c9_empty_list_extracts_all "a.zip" ["p"] (stdRun ["p"])
    (Or.inr (Or.inl rfl))).2

/-- C1: evaluation of `populate_tree` at the failing input
`[("a/x.txt", ...), ("a/y.txt", ...)]`.  The claim says the walk looks up
the existing Folder child `a` and descends into it, so that every entry's
full path is reachable by concatenating segment names root-to-leaf.  The
code never moves `current_item` into an already-existing folder child:
for the second entry the `a` lookup hits `paths_dict`, `current_item`
stays at the root, and the File node carrying `file_paths` entry
"a/y.txt" is appended directly under the root — its root-to-leaf
concatenation is "y.txt", not "a/y.txt". -/
theorem c1_walk_misplaces_file :
    populate_tree [("a/x.txt", "1", "t1"), ("a/y.txt", "2", "t2")] =
      .ok (.mk "Root" none none
        [.mk "a" (some .folder) none
          [.mk "x.txt" (some (.file "1" "t1")) (some "a/x.txt") []],
         .mk "y.txt" (some (.file "2" "t2")) (some "a/y.txt") []]) := rfl

/-- C5: evaluation of `populate_tree` at the end-to-end scenario input of
the specification.  Inserting the very first entry "a/b/c.txt" creates
the fresh folder `a`, then (because `i < len(path_parts) - 2`) descends
into `GetFirstChild` of that just-created, childless folder — an invalid
item — and the next `AppendItem` on the invalid item fails (wxWidgets
assertion).  No tree with folder `a` containing folder `b` is ever
built, and the selection-resolution part of the scenario is unreachable. -/
theorem c5_scenario_fails :
    populate_tree
        [("a/b/c.txt", "10", "t1"), ("a/d.txt", "20", "t2"),
         ("e.txt", "5", "t3")] =
      .error "AppendItem: invalid parent item" := rfl

/-- C4 counterexample: two entries with the same path "x.txt" produce a
tree whose root has two File children for that path — the count of File
nodes carrying "x.txt" is 2, not 1, and the first entry's attributes are
not overwritten — refuting "exactly one File node ... with the last
entry's attributes". -/
theorem c4_counterexample :
    populate_tree [("x.txt", "1", "t1"), ("x.txt", "2", "t2")] =
      .ok (.mk "Root" none none
        [.mk "x.txt" (some (.file "1" "t1")) (some "x.txt") [],
         .mk "x.txt" (some (.file "2" "t2")) (some "x.txt") []]) ∧
    Except.map (fun t => (allFileNodePaths t).count "x.txt")
        (populate_tree [("x.txt", "1", "t1"), ("x.txt", "2", "t2")]) =
      .ok 2 := by
  have h1 : populate_tree [("x.txt", "1", "t1"), ("x.txt", "2", "t2")] =
      .ok (.mk "Root" none none
        [.mk "x.txt" (some (.file "1" "t1")) (some "x.txt") [],
         .mk "x.txt" (some (.file "2" "t2")) (some "x.txt") []]) := rfl
  refine ⟨h1, ?_⟩
  rw [h1]
  simp [Except.map, allFileNodePaths, allList, WxNode.fp, WxNode.children]

theorem processEntry_singleton (pre : List (List String))
    (l : String) (d : Option ItemData) (f : Option String)
    (cs : List WxNode) (path sz dt s : String)
    (h : splitPath path = [s]) :
    processEntry (pre, .mk l d f cs) (path, sz, dt) =
      .ok (pre, .mk l d f
        (cs ++ [.mk s (some (.file sz dt)) (some path) []])) := by
  simp [processEntry, h, walkSegments, AppendItem, nodeAt, appendChildAt,
    WxNode.children]

theorem populate_loop_singletons (files : List (String × String × String)) :
    ∀ (pre : List (List String)) (l : String) (d : Option ItemData)
      (f : Option String) (cs : List WxNode),
    (∀ e ∈ files, (splitPath e.1).length = 1) →
    List.foldlM processEntry (pre, WxNode.mk l d f cs) files =
      .ok (pre, WxNode.mk l d f (cs ++ files.map (fun e =>
        WxNode.mk ((splitPath e.1).getLastD "")
          (some (.file e.2.1 e.2.2)) (some e.1) []))) := by
  induction files with
  | nil =>
    intro pre l d f cs _
    simp only [List.foldlM_nil, List.map_nil, List.append_nil]
    rfl
  | cons e rest ih =>
    intro pre l d f cs h
    obtain ⟨s, hs⟩ : ∃ s, splitPath e.1 = [s] := by
      have h1 := h e (by simp)
      match hsp : splitPath e.1 with
      | [x] => exact ⟨x, rfl⟩
      | [] => rw [hsp] at h1; simp at h1
      | x :: y :: r => rw [hsp] at h1; simp at h1
    obtain ⟨path, sz, dt⟩ := e
    rw [List.foldlM_cons, processEntry_singleton pre l d f cs path sz dt s hs]
    show List.foldlM processEntry _ rest = _
    rw [ih pre l d f _ (fun e2 he2 => h e2 (by simp [he2]))]
    simp [hs]

/-- C4 (amended): for an entry list all of whose paths are single-segment,
`populate_tree` raises no error and appends one fresh File node under the
root *per entry, in order*, each carrying its own entry's size and
modified attributes; in particular a path occurring twice yields two File
nodes for that path, and the earlier node's attributes are never
overwritten. -/
theorem c4_amended (files : List (String × String × String))
    (h : ∀ e ∈ files, (splitPath e.1).length = 1) :
    populate_tree files =
      .ok (.mk "Root" none none (files.map (fun e =>
        WxNode.mk ((splitPath e.1).getLastD "")
          (some (.file e.2.1 e.2.2)) (some e.1) []))) := by
  unfold populate_tree
  rw [populate_loop_singletons files [] "Root" none none [] h]
  simp

/-- C4 witness: the duplicate-path input evaluated through the amended
theorem. -/
theorem c4_amended_witness :
    populate_tree [("x.txt", "1", "t1"), ("x.txt", "2", "t2")] =
      .ok (.mk "Root" none none
        ([("x.txt", "1", "t1"), ("x.txt", "2", "t2")].map (fun e =>
          WxNode.mk ((splitPath e.1).getLastD "")
            (some (.file e.2.1 e.2.2)) (some e.1) []))) :=
  c4_amended [("x.txt", "1", "t1"), ("x.txt", "2", "t2")] (by decide)

theorem addFilesFromChildren_eq_allList :
    ∀ (cs : List WxNode) (acc : List String), leavesList cs = true →
      addFilesFromChildren cs acc = acc ++ allList cs := by
  intro cs acc
  induction cs, acc using addFilesFromChildren.induct with
  | case1 acc => intro _; simp [addFilesFromChildren, allList]
  | case2 lb dt p children rest acc ih =>
    intro h
    simp only [leavesList, Bool.and_eq_true] at h
    obtain ⟨hc, hrest⟩ := h
    have hc2 : children = [] := by simpa using hc
    subst hc2
    simp [addFilesFromChildren, allList, ih hrest]
  | case3 lb dt cs rest acc ih1 ih2 =>
    intro h
    simp only [leavesList, Bool.and_eq_true] at h
    simp only [addFilesFromChildren]
    rw [ih2 h.2, ih1 h.1]
    simp [allList]

theorem mem_allList_of_mem_descList :
    ∀ (cs : List WxNode) (f : WxNode) (p : String),
      f ∈ descList cs → f.fp = some p → p ∈ allList cs := by
  intro cs
  induction cs using descList.induct with
  | case1 => intro f p hmem _; simp [descList] at hmem
  | case2 lb dt fpv cs rest ih1 ih2 =>
    intro f p hmem hfp
    simp only [descList, List.mem_cons, List.mem_append] at hmem
    rcases hmem with rfl | hcs | hrest
    · simp only [WxNode.fp] at hfp
      subst hfp
      simp [allList]
    · have hm := ih1 f p hcs hfp
      rcases fpv with _ | q <;>
        simp only [allList, List.mem_cons, List.mem_append] <;> tauto
    · have hm := ih2 f p hrest hfp
      rcases fpv with _ | q <;>
        simp only [allList, List.mem_cons, List.mem_append] <;> tauto

/-- C8: for every tree satisfying the data-model invariant that File
items are leaves (only Folder nodes own children) and whose root is not
itself a key of `file_paths` (the hidden root created by AddRoot never
is), resolving the selection consisting of exactly the root returns the
`file_paths` entry of every File item of the tree, one per item —
regardless of nesting depth — in depth-first child-iteration (insertion)
order; when the File paths of the tree are pairwise distinct the output
has no duplicates. -/
theorem c8_root_selection_returns_all (t : WxNode)
    (hleaves : filesAreLeaves t = true) (hroot : t.fp = none) :
    get_selected_files [t] = allFileNodePaths t ∧
    ((allFileNodePaths t).Nodup → (get_selected_files [t]).Nodup) := by
  cases t with
  | mk lb dt fpv cs =>
    simp only [WxNode.fp] at hroot
    subst hroot
    simp only [filesAreLeaves] at hleaves
    have h1 : get_selected_files [WxNode.mk lb dt none cs] =
        allFileNodePaths (WxNode.mk lb dt none cs) := by
      simp [get_selected_files, selLoop, add_files_under_folder,
        WxNode.children, allFileNodePaths, WxNode.fp,
        addFilesFromChildren_eq_allList cs [] hleaves]
    exact ⟨h1, fun hnd => h1 ▸ hnd⟩

/-- C8 witness: a two-level tree with files at both depths, resolved from
the root. -/
theorem c8_root_selection_returns_all_witness :
    get_selected_files
        [WxNode.mk "Root" none none
          [WxNode.mk "a" (some .folder) none
            [WxNode.mk "b.txt" (some (.file "1" "t1")) (some "a/b.txt") []],
           WxNode.mk "c.txt" (some (.file "2" "t2")) (some "c.txt") []]] =
      allFileNodePaths
        (WxNode.mk "Root" none none
          [WxNode.mk "a" (some .folder) none
            [WxNode.mk "b.txt" (some (.file "1" "t1")) (some "a/b.txt") []],
           WxNode.mk "c.txt" (some (.file "2" "t2")) (some "c.txt") []]) :=
  (c8_root_selection_returns_all
    (WxNode.mk "Root" none none
      [WxNode.mk "a" (some .folder) none
        [WxNode.mk "b.txt" (some (.file "1" "t1")) (some "a/b.txt") []],
       WxNode.mk "c.txt" (some (.file "2" "t2")) (some "c.txt") []])
    (by simp [filesAreLeaves, leavesList]) rfl).1

/-- C2 counterexample: selecting a Folder node together with one of its
descendant File nodes does *not* return the same sequence as selecting
the Folder alone, and the output contains a duplicate path —
`get_selected_files` has no seen-set and never deduplicates. -/
theorem c2_counterexample :
    get_selected_files
        [WxNode.mk "a" (some .folder) none
          [WxNode.mk "x.txt" (some (.file "1" "t1")) (some "a/x.txt") []],
         WxNode.mk "x.txt" (some (.file "1" "t1")) (some "a/x.txt") []] ≠
      get_selected_files
        [WxNode.mk "a" (some .folder) none
          [WxNode.mk "x.txt" (some (.file "1" "t1")) (some "a/x.txt") []]] ∧
    ¬ (get_selected_files
        [WxNode.mk "a" (some .folder) none
          [WxNode.mk "x.txt" (some (.file "1" "t1")) (some "a/x.txt") []],
         WxNode.mk "x.txt" (some (.file "1" "t1")) (some "a/x.txt") []]).Nodup := by
  constructor
  · simp only [get_selected_files, selLoop, add_files_under_folder,
      WxNode.children, addFilesFromChildren]
    decide
  · simp only [get_selected_files, selLoop, add_files_under_folder,
      WxNode.children, addFilesFromChildren]
    decide

/-- C2 (amended): selecting a Folder node together with a descendant File
node returns the Folder's resolution followed by that file's path *again*:
the resolver does not deduplicate, the descendant's path already occurs
in the Folder's resolution, and the combined output therefore contains a
duplicate. -/
theorem c2_amended (folder f : WxNode) (p : String)
    (hleaves : filesAreLeaves folder = true)
    (hfold : folder.fp = none)
    (hdesc : f ∈ descendants folder)
    (hfp : f.fp = some p) :
    get_selected_files [folder, f] = get_selected_files [folder] ++ [p] ∧
    p ∈ get_selected_files [folder] ∧
    ¬ (get_selected_files [folder, f]).Nodup := by
  cases folder with
  | mk lb dt fpv cs =>
    simp only [WxNode.fp] at hfold
    subst hfold
    simp only [filesAreLeaves] at hleaves
    have hres : get_selected_files [WxNode.mk lb dt none cs] = allList cs := by
      simp [get_selected_files, selLoop, add_files_under_folder,
        WxNode.children, addFilesFromChildren_eq_allList cs [] hleaves]
    have hmem : p ∈ allList cs :=
      mem_allList_of_mem_descList cs f p
        (by simpa [descendants, WxNode.children] using hdesc) hfp
    have h1 : get_selected_files [WxNode.mk lb dt none cs, f] =
        get_selected_files [WxNode.mk lb dt none cs] ++ [p] := by
      cases f with
      | mk lb2 dt2 fpv2 cs2 =>
        simp only [WxNode.fp] at hfp
        subst hfp
        simp [get_selected_files, selLoop, add_files_under_folder,
          WxNode.children, addFilesFromChildren_eq_allList cs [] hleaves,
          addFilesFromChildren_eq_allList cs []]
    refine ⟨h1, hres ▸ hmem, ?_⟩
    intro hnd
    rw [h1, List.nodup_append] at hnd
    exact hnd.2.2 (hres ▸ hmem) (List.mem_singleton_self p)

/-- C2 witness: the amended statement at a concrete folder containing one
file, with that file also selected. -/
theorem c2_amended_witness :
    get_selected_files
        [WxNode.mk "a" (some .folder) none
          [WxNode.mk "x.txt" (some (.file "1" "t1")) (some "a/x.txt") []],
         WxNode.mk "x.txt" (some (.file "1" "t1")) (some "a/x.txt") []] =
      get_selected_files
        [WxNode.mk "a" (some .folder) none
          [WxNode.mk "x.txt" (some (.file "1" "t1")) (some "a/x.txt") []]] ++
        ["a/x.txt"] :=
  (c2_amended
    (WxNode.mk "a" (some .folder) none
      [WxNode.mk "x.txt" (some (.file "1" "t1")) (some "a/x.txt") []])
    (WxNode.mk "x.txt" (some (.file "1" "t1")) (some "a/x.txt") [])
    "a/x.txt"
    (by simp [filesAreLeaves, leavesList])
    rfl
    (by simp [descendants, descList, WxNode.children])
    rfl).1

theorem listTask_suffix_cases (p : List Act) (h : p <:+ listTask) :
    p = listTask ∨ p = [Act.enterReader, Act.exitReader, Act.release] ∨
    p = [Act.exitReader, Act.release] ∨ p = [Act.release] ∨ p = [] := by
  have hm : p ∈ listTask.tails := (List.mem_tails p listTask).2 h
  simp only [listTask, List.tails_cons, List.tails, List.mem_cons,
    List.mem_singleton, List.not_mem_nil, or_false] at hm
  simp only [listTask]
  tauto

theorem gateInv_init (k : Nat) :
    GateInv ⟨2, 0, List.replicate k listTask⟩ := by
  refine ⟨?_, ?_, ?_⟩
  · intro p hp
    rw [List.eq_of_mem_replicate hp]
  · simp [List.map_replicate, List.sum_replicate, permitsHeld, listTask]
  · simp [List.map_replicate, List.sum_replicate, insideReader, listTask]

theorem gateInv_step {s s2 : Sys} (hstep : Step s s2) (hinv : GateInv s) :
    GateInv s2 := by
  obtain ⟨hsuf, hsem, hread⟩ := hinv
  cases hstep with
  | acquire pre post p s htasks hs0 =>
    have hps : Act.acquire :: p <:+ listTask :=
      hsuf _ (by rw [htasks]; exact List.mem_append_right _ (List.mem_cons_self _ _))
    have hp : p = [Act.enterReader, Act.exitReader, Act.release] := by
      rcases listTask_suffix_cases _ hps with h | h | h | h | h
      · simpa [listTask] using h
      · simp [listTask] at h
      · simp [listTask] at h
      · simp [listTask] at h
      · simp at h
    subst hp
    rw [htasks] at hsem hread
    refine ⟨?_, ?_, ?_⟩
    · intro q hq
      rcases List.mem_append.1 hq with hq | hq
      · exact hsuf q (by rw [htasks]; exact List.mem_append_left _ hq)
      · rcases List.mem_cons.1 hq with rfl | hq
        · decide
        · exact hsuf q
            (by rw [htasks]; exact List.mem_append_right _ (List.mem_cons_of_mem _ hq))
    · simp only [List.map_append, List.sum_append, List.map_cons,
        List.sum_cons] at hsem ⊢
      have e1 : permitsHeld (Act.acquire ::
          [Act.enterReader, Act.exitReader, Act.release]) = 0 := rfl
      have e2 : permitsHeld [Act.enterReader, Act.exitReader, Act.release] = 1 := rfl
      rw [e1] at hsem
      rw [e2]
      omega
    · simp only [List.map_append, List.sum_append, List.map_cons,
        List.sum_cons] at hread ⊢
      have e1 : insideReader (Act.acquire ::
          [Act.enterReader, Act.exitReader, Act.release]) = 0 := rfl
      have e2 : insideReader [Act.enterReader, Act.exitReader, Act.release] = 0 := rfl
      rw [e1] at hread
      rw [e2]
      omega
  | release pre post p s htasks =>
    have hps : Act.release :: p <:+ listTask :=
      hsuf _ (by rw [htasks]; exact List.mem_append_right _ (List.mem_cons_self _ _))
    have hp : p = [] := by
      rcases listTask_suffix_cases _ hps with h | h | h | h | h
      · simp [listTask] at h
      · simp [listTask] at h
      · simp [listTask] at h
      · simpa [listTask] using h
      · simp at h
    subst hp
    rw [htasks] at hsem hread
    refine ⟨?_, ?_, ?_⟩
    · intro q hq
      rcases List.mem_append.1 hq with hq | hq
      · exact hsuf q (by rw [htasks]; exact List.mem_append_left _ hq)
      · rcases List.mem_cons.1 hq with rfl | hq
        · decide
        · exact hsuf q
            (by rw [htasks]; exact List.mem_append_right _ (List.mem_cons_of_mem _ hq))
    · simp only [List.map_append, List.sum_append, List.map_cons,
        List.sum_cons] at hsem ⊢
      have e1 : permitsHeld [Act.release] = 1 := rfl
      have e2 : permitsHeld ([] : List Act) = 0 := rfl
      rw [e1] at hsem
      rw [e2]
      omega
    · simp only [List.map_append, List.sum_append, List.map_cons,
        List.sum_cons] at hread ⊢
      have e1 : insideReader [Act.release] = 0 := rfl
      have e2 : insideReader ([] : List Act) = 0 := rfl
      rw [e1] at hread
      rw [e2]
      omega
  | enterReader pre post p s htasks =>
    have hps : Act.enterReader :: p <:+ listTask :=
      hsuf _ (by rw [htasks]; exact List.mem_append_right _ (List.mem_cons_self _ _))
    have hp : p = [Act.exitReader, Act.release] := by
      rcases listTask_suffix_cases _ hps with h | h | h | h | h
      · simp [listTask] at h
      · simpa [listTask] using h
      · simp [listTask] at h
      · simp [listTask] at h
      · simp at h
    subst hp
    rw [htasks] at hsem hread
    refine ⟨?_, ?_, ?_⟩
    · intro q hq
      rcases List.mem_append.1 hq with hq | hq
      · exact hsuf q (by rw [htasks]; exact List.mem_append_left _ hq)
      · rcases List.mem_cons.1 hq with rfl | hq
        · decide
        · exact hsuf q
            (by rw [htasks]; exact List.mem_append_right _ (List.mem_cons_of_mem _ hq))
    · simp only [List.map_append, List.sum_append, List.map_cons,
        List.sum_cons] at hsem ⊢
      have e1 : permitsHeld (Act.enterReader :: [Act.exitReader, Act.release]) = 1 := rfl
      have e2 : permitsHeld [Act.exitReader, Act.release] = 1 := rfl
      rw [e1] at hsem
      rw [e2]
      omega
    · simp only [List.map_append, List.sum_append, List.map_cons,
        List.sum_cons] at hread ⊢
      have e1 : insideReader (Act.enterReader :: [Act.exitReader, Act.release]) = 0 := rfl
      have e2 : insideReader [Act.exitReader, Act.release] = 1 := rfl
      rw [e1] at hread
      rw [e2]
      omega
  | exitReader pre post p s htasks =>
    have hps : Act.exitReader :: p <:+ listTask :=
      hsuf _ (by rw [htasks]; exact List.mem_append_right _ (List.mem_cons_self _ _))
    have hp : p = [Act.release] := by
      rcases listTask_suffix_cases _ hps with h | h | h | h | h
      · simp [listTask] at h
      · simp [listTask] at h
      · simpa [listTask] using h
      · simp [listTask] at h
      · simp at h
    subst hp
    rw [htasks] at hsem hread
    refine ⟨?_, ?_, ?_⟩
    · intro q hq
      rcases List.mem_append.1 hq with hq | hq
      · exact hsuf q (by rw [htasks]; exact List.mem_append_left _ hq)
      · rcases List.mem_cons.1 hq with rfl | hq
        · decide
        · exact hsuf q
            (by rw [htasks]; exact List.mem_append_right _ (List.mem_cons_of_mem _ hq))
    · simp only [List.map_append, List.sum_append, List.map_cons,
        List.sum_cons] at hsem ⊢
      have e1 : permitsHeld (Act.exitReader :: [Act.release]) = 1 := rfl
      have e2 : permitsHeld [Act.release] = 1 := rfl
      rw [e1] at hsem
      rw [e2]
      omega
    · simp only [List.map_append, List.sum_append, List.map_cons,
        List.sum_cons] at hread ⊢
      have e1 : insideReader (Act.exitReader :: [Act.release]) = 1 := rfl
      have e2 : insideReader [Act.release] = 0 := rfl
      rw [e1] at hread
      rw [e2]
      omega

theorem gateInv_reach {s0 s : Sys} (h : Reach s0 s) (h0 : GateInv s0) :
    GateInv s := by
  induction h with
  | refl => exact h0
  | tail _ hstep ih => exact gateInv_step hstep ih

theorem gateInv_bound {s : Sys} (hinv : GateInv s) : s.inReader ≤ 2 := by
  obtain ⟨hsuf, hsem, hread⟩ := hinv
  have hle : (s.tasks.map insideReader).sum ≤ (s.tasks.map permitsHeld).sum := by
    apply List.sum_le_sum
    intro p hp
    rcases listTask_suffix_cases p (hsuf p hp) with h | h | h | h | h <;>
      subst h <;> decide
  omega

/-- C3 (amended): only the list-contents tasks of `populate_file_list`
are gated: each acquires `thread_semaphore` before calling the Archive
Reader and the `with` statement releases it on every exit path, so in a
system of any number of concurrent list-contents tasks, every reachable
state has at most 2 tasks inside the Archive Reader.  The `extract_task`
closures never touch the semaphore, so concurrent extractions are *not*
bounded (see the counterexample). -/
theorem c3_amended (k : Nat) (s : Sys)
    (h : Reach ⟨2, 0, List.replicate k listTask⟩ s) : s.inReader ≤ 2 :=
  gateInv_bound (gateInv_reach h (gateInv_init k))

/-- C3 witness: the initial state of 5 concurrent list-contents tasks is
reachable from itself and respects the bound. -/
theorem c3_amended_witness :
    (⟨2, 0, List.replicate 5 listTask⟩ : Sys).inReader ≤ 2 :=
  c3_amended 5 ⟨2, 0, List.replicate 5 listTask⟩ Relation.ReflTransGen.refl

/-- C3 counterexample: three concurrent `extract_task` extraction tasks —
which call the Archive Reader without ever acquiring the admission gate —
can all be inside the reader simultaneously: a state with instrumented
reader count 3 (exceeding the claimed system-wide bound of 2) is
reachable while both semaphore permits are still free. -/
theorem c3_counterexample :
    Reach ⟨2, 0, [extractTask, extractTask, extractTask]⟩
      ⟨2, 3, [[Act.exitReader], [Act.exitReader], [Act.exitReader]]⟩ ∧
    ¬ (3 ≤ 2) := by
  constructor
  · have s1 : Step ⟨2, 0, [extractTask, extractTask, extractTask]⟩
        ⟨2, 1, [[Act.exitReader], extractTask, extractTask]⟩ :=
      Step.enterReader [] [extractTask, extractTask] [Act.exitReader]
        ⟨2, 0, [extractTask, extractTask, extractTask]⟩ rfl
    have s2 : Step ⟨2, 1, [[Act.exitReader], extractTask, extractTask]⟩
        ⟨2, 2, [[Act.exitReader], [Act.exitReader], extractTask]⟩ :=
      Step.enterReader [[Act.exitReader]] [extractTask] [Act.exitReader]
        ⟨2, 1, [[Act.exitReader], extractTask, extractTask]⟩ rfl
    have s3 : Step ⟨2, 2, [[Act.exitReader], [Act.exitReader], extractTask]⟩
        ⟨2, 3, [[Act.exitReader], [Act.exitReader], [Act.exitReader]]⟩ :=
      Step.enterReader [[Act.exitReader], [Act.exitReader]] [] [Act.exitReader]
        ⟨2, 2, [[Act.exitReader], [Act.exitReader], extractTask]⟩ rfl
    exact Relation.ReflTransGen.head s1
      (Relation.ReflTransGen.head s2 (Relation.ReflTransGen.single s3))
  · decide


